import Mathlib

/-!
Verification of the persistent state layer of the taucoin node (`src/txdb.h`).

The repository ships only the header `txdb.h`, which declares the five storage
components (block-metadata store `CBlockTreeDB`, UTXO store `CCoinsViewDB` with
its secondary script index, the coin cursor, the balance ledger `CBalanceViewDB`
and the reward-rate ledger `CRewardRateViewDB`).  The implementation file is not
part of the sources, so every operation below is modelled from the
specification's contracts (§3–§8 of the design document) and checked against the
declared interface.  Hashes (`uint256`) are modelled as `Nat` with `0` as the
null hash; amounts (`CAmount`) as `Int`; on-disk key/value namespaces as
association lists; the KV engine's atomic batch commit as an all-or-nothing
state transition parameterised by a storage-fault flag.
-/

namespace Taucoin

/-- A `uint256` hash, modelled as a natural number; `0` is the null hash. -/
abbrev Hash := Nat

/-- A `CAmount` (satoshi amount), modelled as an integer. -/
abbrev CAmount := Int

/-- Point lookup in an association list keyed by `κ` (first binding wins),
modelling the KV engine's `get(key) -> value|NotFound`. -/
def lookupK {κ α : Type} [DecidableEq κ] : List (κ × α) → κ → Option α
  | [], _ => none
  | (k, v) :: rest, k₀ => if k = k₀ then some v else lookupK rest k₀

/-- Remove every binding for a key, modelling the KV engine's `delete(key)`. -/
def eraseK {κ α : Type} [DecidableEq κ] (m : List (κ × α)) (k : κ) : List (κ × α) :=
  m.filter (fun p => decide (p.1 ≠ k))

/-- Overwrite the binding for a key, modelling the KV engine's `put(key, value)`. -/
def insertK {κ α : Type} [DecidableEq κ] (m : List (κ × α)) (k : κ) (v : α) : List (κ × α) :=
  (k, v) :: eraseK m k

theorem lookupK_eraseK {κ α : Type} [DecidableEq κ] (m : List (κ × α)) (k k₀ : κ) :
    lookupK (eraseK m k) k₀ = if k₀ = k then none else lookupK m k₀ := by
  induction m with
  | nil => by_cases h : k₀ = k <;> simp [eraseK, lookupK, h]
  | cons p rest ih =>
    rcases p with ⟨pk, pv⟩
    by_cases hpk : pk = k
    · have he : eraseK ((pk, pv) :: rest) k = eraseK rest k := by
        simp [eraseK, hpk]
      rw [he, ih]
      by_cases hk : k₀ = k
      · simp [hk]
      · have hpk0 : ¬pk = k₀ := by
          intro h
          exact hk (h ▸ hpk)
        simp [lookupK, hk, hpk0]
    · have he : eraseK ((pk, pv) :: rest) k = (pk, pv) :: eraseK rest k := by
        simp [eraseK, hpk]
      rw [he]
      by_cases hpk0 : pk = k₀
      · subst hpk0
        simp [lookupK, hpk]
      · simp [lookupK, hpk0, ih]

theorem lookupK_insertK {κ α : Type} [DecidableEq κ] (m : List (κ × α)) (k k₀ : κ) (v : α) :
    lookupK (insertK m k v) k₀ = if k₀ = k then some v else lookupK m k₀ := by
  by_cases hk : k₀ = k
  · simp [insertK, lookupK, hk]
  · have hk2 : ¬k = k₀ := fun h => hk h.symm
    simp [insertK, lookupK, hk2, hk, lookupK_eraseK]

theorem mem_eraseK {κ α : Type} [DecidableEq κ] (m : List (κ × α)) (k : κ) (p : κ × α) :
    p ∈ eraseK m k ↔ p ∈ m ∧ p.1 ≠ k := by
  simp [eraseK, List.mem_filter]

theorem mem_insertK {κ α : Type} [DecidableEq κ] (m : List (κ × α)) (k : κ) (v : α) (p : κ × α) :
    p ∈ insertK m k v ↔ p = (k, v) ∨ (p ∈ m ∧ p.1 ≠ k) := by
  simp [insertK, mem_eraseK]

/-- With duplicate-free keys, `lookupK` succeeds exactly on the stored bindings. -/
theorem lookupK_eq_some_iff {κ α : Type} [DecidableEq κ] (m : List (κ × α))
    (hnd : (m.map Prod.fst).Nodup) (k : κ) (v : α) :
    lookupK m k = some v ↔ (k, v) ∈ m := by
  induction m with
  | nil => simp [lookupK]
  | cons p rest ih =>
    rcases p with ⟨pk, pv⟩
    simp only [List.map_cons, List.nodup_cons] at hnd
    by_cases hk : pk = k
    · subst hk
      simp only [lookupK, if_pos rfl, List.mem_cons]
      constructor
      · rintro h
        left
        simpa using h.symm
      · rintro (h | h)
        · simp at h
          simp [h]
        · exact absurd (List.mem_map_of_mem Prod.fst h) hnd.1
    · simp only [lookupK, if_neg hk, List.mem_cons]
      rw [ih hnd.2]
      constructor
      · exact Or.inr
      · rintro (h | h)
        · cases h
          exact absurd rfl hk
        · exact h

theorem lookupK_eq_none_iff {κ α : Type} [DecidableEq κ] (m : List (κ × α)) (k : κ) :
    lookupK m k = none ↔ k ∉ m.map Prod.fst := by
  induction m with
  | nil => simp [lookupK]
  | cons p rest ih =>
    rcases p with ⟨pk, pv⟩
    by_cases hk : pk = k
    · subst hk
      simp [lookupK]
    · simp [lookupK, hk, ih, Ne.symm hk]

/-- One unspent transaction output: its amount and its destination script,
represented by the script's hash (`coins.h` / `coinsbyscript.h`: only the
script hash is relevant to this layer's script index). -/
structure CTxOut where
  nValue : CAmount
  scriptHash : Hash
deriving DecidableEq

/-- A coin entry (`CCoins`): the set of a transaction's outputs that are still
unspent (`none` marks a spent slot), with block height and coinbase flag. -/
structure CCoins where
  vout : List (Option CTxOut)
  nHeight : Nat
  fCoinBase : Bool
deriving DecidableEq

/-- The script hashes owning the still-unspent outputs of a coin entry. -/
def scriptHashesOf (c : CCoins) : List Hash :=
  (c.vout.filterMap id).map (fun o => o.scriptHash)

/-- One element of the diff handed to `CCoinsViewDB::BatchWrite`: either a coin
entry insert/update or a tombstone requesting the entry's erasure. -/
inductive CoinChange where
  | entry (c : CCoins)
  | tombstone
deriving DecidableEq

/-- Modelled from the spec: the state of `CCoinsViewDB` (implementation file
absent from the sources; only `txdb.h` declares it).  `coins` is the coin-entry
namespace, `bestBlock` the best-block pointer singleton (`none` when the store
was never initialised), `scriptIndex` the secondary script index as the set of
(script hash, txid) pairs of §3, and `fScriptIndexEnabled` whether the index
feature is on (`SetCoinsViewByScript` installed a view). -/
structure CCoinsViewDB where
  coins : List (Hash × CCoins)
  bestBlock : Option Hash
  scriptIndex : List (Hash × Hash)
  fScriptIndexEnabled : Bool
deriving DecidableEq

/-- A freshly created, never-initialised store (`CCoinsViewDB` constructor with
`fWipe` or a new directory). -/
def freshCoinsDB (enabled : Bool) : CCoinsViewDB :=
  ⟨[], none, [], enabled⟩

/-- Modelled from the spec: `CCoinsViewDB::GetCoins` — point read of a coin
entry; `none` is NotFound (transaction unknown or fully spent). -/
def GetCoins (st : CCoinsViewDB) (txid : Hash) : Option CCoins :=
  lookupK st.coins txid

/-- Modelled from the spec: `CCoinsViewDB::HaveCoins` — existence check. -/
def HaveCoins (st : CCoinsViewDB) (txid : Hash) : Bool :=
  (GetCoins st txid).isSome

/-- Modelled from the spec: `CCoinsViewDB::GetBestBlock` — returns the stored
best-block pointer, or the null (zero) hash if the store was never
initialised. -/
def GetBestBlock (st : CCoinsViewDB) : Hash :=
  st.bestBlock.getD 0

/-- Drop all script-index pairs referring to a given transaction. -/
def eraseTxFromIndex (idx : List (Hash × Hash)) (txid : Hash) : List (Hash × Hash) :=
  idx.filter (fun p => decide (p.2 ≠ txid))

/-- The script-index pairs contributed by one coin entry. -/
def indexPairsOf (txid : Hash) (c : CCoins) : List (Hash × Hash) :=
  (scriptHashesOf c).map (fun s => (s, txid))

/-- Modelled from the spec (§4.1 algorithm notes): apply one element of the
diff to the store — an entry is written over the previous binding, a tombstone
erases it; when the script index is enabled the entry's index pairs replace
whatever pairs the transaction previously owned, inside the same batch. -/
def applyChange (st : CCoinsViewDB) (txid : Hash) (ch : CoinChange) : CCoinsViewDB :=
  match ch with
  | .entry c =>
      { st with
        coins := insertK st.coins txid c
        scriptIndex :=
          if st.fScriptIndexEnabled then
            indexPairsOf txid c ++ eraseTxFromIndex st.scriptIndex txid
          else st.scriptIndex }
  | .tombstone =>
      { st with
        coins := eraseK st.coins txid
        scriptIndex :=
          if st.fScriptIndexEnabled then eraseTxFromIndex st.scriptIndex txid
          else st.scriptIndex }

/-- The full effect of a committed batch: every diff element applied, then the
best-block pointer set. -/
def writeAll (st : CCoinsViewDB) (changes : List (Hash × CoinChange)) (hashBlock : Hash) :
    CCoinsViewDB :=
  { changes.foldl (fun s p => applyChange s p.1 p.2) st with bestBlock := some hashBlock }

/-- Modelled from the spec: `CCoinsViewDB::BatchWrite` — builds one KV batch
from the diff plus the best-block update and commits it atomically
(`storageFault` stands for the KV engine reporting an I/O fault on commit, in
which case the all-or-nothing contract of §6 leaves the store untouched and
the operation returns `false`). -/
def BatchWrite (st : CCoinsViewDB) (changes : List (Hash × CoinChange)) (hashBlock : Hash)
    (storageFault : Bool) : CCoinsViewDB × Bool :=
  if storageFault then (st, false) else (writeAll st changes hashBlock, true)

/-- Modelled from the spec: `CCoinsViewDB::DeleteAllCoinsByScript` — deletes
the entire script-index namespace. -/
def DeleteAllCoinsByScript (st : CCoinsViewDB) : CCoinsViewDB :=
  { st with scriptIndex := [] }

/-- The (script hash, txid) pairs derivable by scanning the coin-entry cursor. -/
def deriveIndex (coins : List (Hash × CCoins)) : List (Hash × Hash) :=
  coins.flatMap (fun p => indexPairsOf p.1 p.2)

/-- Modelled from the spec: `CCoinsViewDB::GenerateAllCoinsByScript` — scans
the entire coin-entry set through the cursor and regenerates every script-index
entry. -/
def GenerateAllCoinsByScript (st : CCoinsViewDB) : CCoinsViewDB :=
  { st with scriptIndex := deriveIndex st.coins }

/-- Modelled from the spec: `CCoinsViewDB::GetCoinsByHashOfScript` — the txids
the script index currently records for a script hash. -/
def GetCoinsByHashOfScript (st : CCoinsViewDB) (scriptHash : Hash) : List Hash :=
  (st.scriptIndex.filter (fun p => decide (p.1 = scriptHash))).map Prod.snd

/-- The fold applying a whole diff, element by element. -/
def applyChanges (st : CCoinsViewDB) (changes : List (Hash × CoinChange)) : CCoinsViewDB :=
  changes.foldl (fun s p => applyChange s p.1 p.2) st

/-- What a single diff element leaves behind for its transaction: the written
entry, or nothing for a tombstone. -/
def changeResult : CoinChange → Option CCoins
  | .entry c => some c
  | .tombstone => none

theorem GetCoins_applyChange (st : CCoinsViewDB) (t₀ t : Hash) (ch : CoinChange) :
    GetCoins (applyChange st t₀ ch) t = if t = t₀ then changeResult ch else GetCoins st t := by
  cases ch <;>
    simp [applyChange, GetCoins, changeResult, lookupK_insertK, lookupK_eraseK]

theorem applyChanges_cons (st : CCoinsViewDB) (p : Hash × CoinChange)
    (rest : List (Hash × CoinChange)) :
    applyChanges st (p :: rest) = applyChanges (applyChange st p.1 p.2) rest := rfl

theorem GetCoins_applyChanges_notMem (st : CCoinsViewDB) (changes : List (Hash × CoinChange))
    (t : Hash) (h : t ∉ changes.map Prod.fst) :
    GetCoins (applyChanges st changes) t = GetCoins st t := by
  induction changes generalizing st with
  | nil => rfl
  | cons p rest ih =>
    simp only [List.map_cons, List.mem_cons] at h
    push_neg at h
    rw [applyChanges_cons, ih _ h.2, GetCoins_applyChange, if_neg h.1]

theorem GetCoins_applyChanges_mem (st : CCoinsViewDB) (changes : List (Hash × CoinChange))
    (hnd : (changes.map Prod.fst).Nodup) (t : Hash) (ch : CoinChange)
    (hmem : (t, ch) ∈ changes) :
    GetCoins (applyChanges st changes) t = changeResult ch := by
  induction changes generalizing st with
  | nil => cases hmem
  | cons p rest ih =>
    simp only [List.map_cons, List.nodup_cons] at hnd
    rcases List.mem_cons.mp hmem with h | h
    · rw [applyChanges_cons,
        GetCoins_applyChanges_notMem _ _ _ (by rw [← h] at hnd; exact hnd.1),
        GetCoins_applyChange, ← h, if_pos rfl]
    · rw [applyChanges_cons]
      exact ih _ hnd.2 h

theorem coins_writeAll (st : CCoinsViewDB) (changes : List (Hash × CoinChange)) (hb : Hash) :
    (writeAll st changes hb).coins = (applyChanges st changes).coins := rfl

theorem GetCoins_writeAll (st : CCoinsViewDB) (changes : List (Hash × CoinChange))
    (hb t : Hash) :
    GetCoins (writeAll st changes hb) t = GetCoins (applyChanges st changes) t := rfl

theorem GetBestBlock_writeAll (st : CCoinsViewDB) (changes : List (Hash × CoinChange))
    (hb : Hash) : GetBestBlock (writeAll st changes hb) = hb := rfl

/-- C1: `applyDiff` (`CCoinsViewDB::BatchWrite`) is atomic — on a storage
fault the returned state is exactly the old store (no mutation observable) and
the call reports failure; on a committed call every entry insert/update and
every tombstone erase of the diff is applied, untouched transactions keep
their old entries, and the best-block pointer is the new hash — never one
side without the other. -/
theorem batchWrite_atomic (st : CCoinsViewDB) (changes : List (Hash × CoinChange))
    (hashBlock : Hash) (storageFault : Bool)
    (hnd : (changes.map Prod.fst).Nodup) :
    (storageFault = true →
      BatchWrite st changes hashBlock storageFault = (st, false)) ∧
    (storageFault = false →
      (BatchWrite st changes hashBlock storageFault).2 = true ∧
      (∀ t ch, (t, ch) ∈ changes →
        GetCoins (BatchWrite st changes hashBlock storageFault).1 t = changeResult ch) ∧
      (∀ t, t ∉ changes.map Prod.fst →
        GetCoins (BatchWrite st changes hashBlock storageFault).1 t = GetCoins st t) ∧
      GetBestBlock (BatchWrite st changes hashBlock storageFault).1 = hashBlock) := by
  constructor
  · intro hf
    simp [BatchWrite, hf]
  · intro hf
    subst hf
    refine ⟨rfl, ?_, ?_, ?_⟩
    · intro t ch hmem
      simpa [BatchWrite, GetCoins_writeAll] using
        GetCoins_applyChanges_mem st changes hnd t ch hmem
    · intro t hmem
      simpa [BatchWrite, GetCoins_writeAll] using
        GetCoins_applyChanges_notMem st changes t hmem
    · simp [BatchWrite, GetBestBlock_writeAll]

/-- Witness for C1 at a concrete two-element diff. -/
theorem batchWrite_atomic_witness :
    (([((5 : Hash), CoinChange.entry ⟨[some ⟨50, 7⟩], 100, false⟩),
       ((8 : Hash), CoinChange.tombstone)].map Prod.fst).Nodup) ∧
    ((true = true →
      BatchWrite (freshCoinsDB true)
        [((5 : Hash), CoinChange.entry ⟨[some ⟨50, 7⟩], 100, false⟩),
         ((8 : Hash), CoinChange.tombstone)] 99 true = (freshCoinsDB true, false)) ∧
     (true = false →
      (BatchWrite (freshCoinsDB true)
        [((5 : Hash), CoinChange.entry ⟨[some ⟨50, 7⟩], 100, false⟩),
         ((8 : Hash), CoinChange.tombstone)] 99 true).2 = true ∧
      (∀ t ch, (t, ch) ∈
          [((5 : Hash), CoinChange.entry ⟨[some ⟨50, 7⟩], 100, false⟩),
           ((8 : Hash), CoinChange.tombstone)] →
        GetCoins (BatchWrite (freshCoinsDB true)
          [((5 : Hash), CoinChange.entry ⟨[some ⟨50, 7⟩], 100, false⟩),
           ((8 : Hash), CoinChange.tombstone)] 99 true).1 t = changeResult ch) ∧
      (∀ t, t ∉ ([((5 : Hash), CoinChange.entry ⟨[some ⟨50, 7⟩], 100, false⟩),
           ((8 : Hash), CoinChange.tombstone)].map Prod.fst) →
        GetCoins (BatchWrite (freshCoinsDB true)
          [((5 : Hash), CoinChange.entry ⟨[some ⟨50, 7⟩], 100, false⟩),
           ((8 : Hash), CoinChange.tombstone)] 99 true).1 t = GetCoins (freshCoinsDB true) t) ∧
      GetBestBlock (BatchWrite (freshCoinsDB true)
        [((5 : Hash), CoinChange.entry ⟨[some ⟨50, 7⟩], 100, false⟩),
         ((8 : Hash), CoinChange.tombstone)] 99 true).1 = 99)) :=
  ⟨by decide,
   batchWrite_atomic (freshCoinsDB true)
     [((5 : Hash), CoinChange.entry ⟨[some ⟨50, 7⟩], 100, false⟩),
      ((8 : Hash), CoinChange.tombstone)] 99 true (by decide)⟩

/-- C2: round-trip — after a committed diff that inserts entry `e` under txid
`t`, `GetCoins t` returns exactly `e`; after a subsequent committed diff
carrying a tombstone for `t`, `GetCoins t` returns NotFound. -/
theorem getCoins_roundTrip (st : CCoinsViewDB) (t : Hash) (e : CCoins)
    (changes₁ changes₂ : List (Hash × CoinChange)) (h₁ h₂ : Hash)
    (hnd₁ : (changes₁.map Prod.fst).Nodup) (hmem₁ : (t, CoinChange.entry e) ∈ changes₁)
    (hnd₂ : (changes₂.map Prod.fst).Nodup) (hmem₂ : (t, CoinChange.tombstone) ∈ changes₂) :
    GetCoins (BatchWrite st changes₁ h₁ false).1 t = some e ∧
    GetCoins (BatchWrite (BatchWrite st changes₁ h₁ false).1 changes₂ h₂ false).1 t = none := by
  constructor
  · simpa [BatchWrite, GetCoins_writeAll] using
      GetCoins_applyChanges_mem st changes₁ hnd₁ t (CoinChange.entry e) hmem₁
  · simpa [BatchWrite, GetCoins_writeAll] using
      GetCoins_applyChanges_mem (BatchWrite st changes₁ h₁ false).1 changes₂ hnd₂ t
        CoinChange.tombstone hmem₂

/-- Witness for C2 at a concrete entry and tombstone. -/
theorem getCoins_roundTrip_witness :
    (([((5 : Hash), CoinChange.entry ⟨[some ⟨50, 7⟩], 100, false⟩)].map Prod.fst).Nodup ∧
     ((5 : Hash), CoinChange.entry (⟨[some ⟨50, 7⟩], 100, false⟩ : CCoins)) ∈
       [((5 : Hash), CoinChange.entry ⟨[some ⟨50, 7⟩], 100, false⟩)] ∧
     (([((5 : Hash), CoinChange.tombstone)].map Prod.fst).Nodup) ∧
     ((5 : Hash), CoinChange.tombstone) ∈ [((5 : Hash), CoinChange.tombstone)]) ∧
    (GetCoins (BatchWrite (freshCoinsDB true)
        [((5 : Hash), CoinChange.entry ⟨[some ⟨50, 7⟩], 100, false⟩)] 99 false).1 5 =
      some ⟨[some ⟨50, 7⟩], 100, false⟩ ∧
     GetCoins (BatchWrite (BatchWrite (freshCoinsDB true)
        [((5 : Hash), CoinChange.entry ⟨[some ⟨50, 7⟩], 100, false⟩)] 99 false).1
        [((5 : Hash), CoinChange.tombstone)] 101 false).1 5 = none) :=
  ⟨⟨by decide, by decide, by decide, by decide⟩,
   getCoins_roundTrip (freshCoinsDB true) 5 ⟨[some ⟨50, 7⟩], 100, false⟩
     [((5 : Hash), CoinChange.entry ⟨[some ⟨50, 7⟩], 100, false⟩)]
     [((5 : Hash), CoinChange.tombstone)] 99 101
     (by decide) (by decide) (by decide) (by decide)⟩

/-- C7: `GetBestBlock` on a never-initialised store is the null (zero) hash;
after any committed `BatchWrite` with new best-block hash `H` it returns `H`. -/
theorem getBestBlock_contract (enabled : Bool) (st : CCoinsViewDB)
    (changes : List (Hash × CoinChange)) (hashBlock : Hash) (fault : Bool)
    (hcommit : (BatchWrite st changes hashBlock fault).2 = true) :
    GetBestBlock (freshCoinsDB enabled) = 0 ∧
    GetBestBlock (BatchWrite st changes hashBlock fault).1 = hashBlock := by
  refine ⟨rfl, ?_⟩
  cases fault with
  | false => simp [BatchWrite, GetBestBlock_writeAll]
  | true => simp [BatchWrite] at hcommit

/-- Witness for C7 at a concrete committed batch. -/
theorem getBestBlock_contract_witness :
    (BatchWrite (freshCoinsDB false) [((5 : Hash), CoinChange.tombstone)] 77 false).2 = true ∧
    (GetBestBlock (freshCoinsDB false) = 0 ∧
     GetBestBlock
       (BatchWrite (freshCoinsDB false) [((5 : Hash), CoinChange.tombstone)] 77 false).1 = 77) :=
  ⟨by decide,
   getBestBlock_contract false (freshCoinsDB false) [((5 : Hash), CoinChange.tombstone)]
     77 false (by decide)⟩

/-- The script index agrees with the coin-entry set: the stored (script hash,
txid) pairs are exactly those derivable by scanning the coin-entry cursor. -/
def IndexConsistent (st : CCoinsViewDB) : Prop :=
  ∀ p : Hash × Hash, p ∈ st.scriptIndex ↔ p ∈ deriveIndex st.coins

theorem mem_indexPairsOf (t : Hash) (c : CCoins) (p : Hash × Hash) :
    p ∈ indexPairsOf t c ↔ p.2 = t ∧ p.1 ∈ scriptHashesOf c := by
  rcases p with ⟨s, t₀⟩
  simp only [indexPairsOf, List.mem_map]
  constructor
  · rintro ⟨s₀, hs₀, heq⟩
    cases heq
    exact ⟨rfl, hs₀⟩
  · rintro ⟨heq, hs⟩
    cases heq
    exact ⟨s, hs, rfl⟩

theorem mem_eraseTxFromIndex (idx : List (Hash × Hash)) (t : Hash) (p : Hash × Hash) :
    p ∈ eraseTxFromIndex idx t ↔ p ∈ idx ∧ p.2 ≠ t := by
  simp [eraseTxFromIndex, List.mem_filter]

theorem mem_deriveIndex (coins : List (Hash × CCoins)) (p : Hash × Hash) :
    p ∈ deriveIndex coins ↔ ∃ c, (p.2, c) ∈ coins ∧ p.1 ∈ scriptHashesOf c := by
  simp only [deriveIndex, List.mem_flatMap]
  constructor
  · rintro ⟨q, hq, hp⟩
    rw [mem_indexPairsOf] at hp
    exact ⟨q.2, by rw [hp.1]; exact hq, hp.2⟩
  · rintro ⟨c, hc, hs⟩
    exact ⟨(p.2, c), hc, by rw [mem_indexPairsOf]; exact ⟨rfl, hs⟩⟩

theorem flag_applyChange (st : CCoinsViewDB) (t : Hash) (ch : CoinChange) :
    (applyChange st t ch).fScriptIndexEnabled = st.fScriptIndexEnabled := by
  cases ch <;> rfl

theorem flag_applyChanges (st : CCoinsViewDB) (changes : List (Hash × CoinChange)) :
    (applyChanges st changes).fScriptIndexEnabled = st.fScriptIndexEnabled := by
  induction changes generalizing st with
  | nil => rfl
  | cons p rest ih => rw [applyChanges_cons, ih, flag_applyChange]

theorem indexConsistent_applyChange (st : CCoinsViewDB) (t : Hash) (ch : CoinChange)
    (hen : st.fScriptIndexEnabled = true) (h : IndexConsistent st) :
    IndexConsistent (applyChange st t ch) := by
  intro p
  cases ch with
  | entry c =>
    have hsi : (applyChange st t (CoinChange.entry c)).scriptIndex =
        indexPairsOf t c ++ eraseTxFromIndex st.scriptIndex t := by
      simp [applyChange, hen]
    have hco : (applyChange st t (CoinChange.entry c)).coins = insertK st.coins t c := rfl
    rw [show p ∈ deriveIndex (applyChange st t (CoinChange.entry c)).coins ↔
          p ∈ deriveIndex (insertK st.coins t c) from by rw [hco],
      hsi, List.mem_append, mem_indexPairsOf, mem_eraseTxFromIndex, mem_deriveIndex]
    constructor
    · rintro (⟨ht, hs⟩ | ⟨hp, ht⟩)
      · refine ⟨c, ?_, hs⟩
        rw [mem_insertK]
        exact Or.inl (by rw [ht])
      · rcases (mem_deriveIndex _ p).mp ((h p).mp hp) with ⟨c₀, hc₀, hs₀⟩
        refine ⟨c₀, ?_, hs₀⟩
        rw [mem_insertK]
        exact Or.inr ⟨hc₀, ht⟩
    · rintro ⟨c₀, hc₀, hs₀⟩
      rw [mem_insertK] at hc₀
      rcases hc₀ with hc₀ | ⟨hc₀, ht⟩
      · have h1 : p.2 = t := congrArg Prod.fst hc₀
        have h2 : c₀ = c := congrArg Prod.snd hc₀
        subst h2
        exact Or.inl ⟨h1, hs₀⟩
      · exact Or.inr ⟨(h p).mpr ((mem_deriveIndex _ p).mpr ⟨c₀, hc₀, hs₀⟩), ht⟩
  | tombstone =>
    have hsi : (applyChange st t CoinChange.tombstone).scriptIndex =
        eraseTxFromIndex st.scriptIndex t := by
      simp [applyChange, hen]
    have hco : (applyChange st t CoinChange.tombstone).coins = eraseK st.coins t := rfl
    rw [show p ∈ deriveIndex (applyChange st t CoinChange.tombstone).coins ↔
          p ∈ deriveIndex (eraseK st.coins t) from by rw [hco],
      hsi, mem_eraseTxFromIndex, mem_deriveIndex]
    constructor
    · rintro ⟨hp, ht⟩
      rcases (mem_deriveIndex _ p).mp ((h p).mp hp) with ⟨c₀, hc₀, hs₀⟩
      refine ⟨c₀, ?_, hs₀⟩
      rw [mem_eraseK]
      exact ⟨hc₀, ht⟩
    · rintro ⟨c₀, hc₀, hs₀⟩
      rw [mem_eraseK] at hc₀
      exact ⟨(h p).mpr ((mem_deriveIndex _ p).mpr ⟨c₀, hc₀.1, hs₀⟩), hc₀.2⟩

theorem indexConsistent_applyChanges (st : CCoinsViewDB) (changes : List (Hash × CoinChange))
    (hen : st.fScriptIndexEnabled = true) (h : IndexConsistent st) :
    IndexConsistent (applyChanges st changes) := by
  induction changes generalizing st with
  | nil => exact h
  | cons p rest ih =>
    rw [applyChanges_cons]
    exact ih _ (by rw [flag_applyChange]; exact hen) (indexConsistent_applyChange st p.1 p.2 hen h)

/-- The states reachable by a sequence of `BatchWrite` calls on a fresh store
with the script index enabled. -/
inductive Reachable : CCoinsViewDB → Prop
  | base : Reachable (freshCoinsDB true)
  | step (st : CCoinsViewDB) (changes : List (Hash × CoinChange)) (hashBlock : Hash)
      (fault : Bool) : Reachable st →
      Reachable ((BatchWrite st changes hashBlock fault).1)

theorem reachable_enabled (st : CCoinsViewDB) (h : Reachable st) :
    st.fScriptIndexEnabled = true := by
  induction h with
  | base => rfl
  | step st₀ changes hashBlock fault _ ih =>
    cases fault with
    | false =>
      show (writeAll st₀ changes hashBlock).fScriptIndexEnabled = true
      rw [show (writeAll st₀ changes hashBlock).fScriptIndexEnabled =
            (applyChanges st₀ changes).fScriptIndexEnabled from rfl,
        flag_applyChanges]
      exact ih
    | true => exact ih

/-- C3: with the script index enabled, every state reachable by `applyDiff`
calls has its stored script-index pairs equal (as a set) to the pairs
derivable from the coin-entry cursor; and from any such state, dropping the
index and regenerating it from a fresh scan re-establishes the equality. -/
theorem scriptIndex_consistency (st : CCoinsViewDB) (h : Reachable st) :
    IndexConsistent st ∧
    IndexConsistent (GenerateAllCoinsByScript (DeleteAllCoinsByScript st)) := by
  constructor
  · induction h with
    | base =>
      intro p
      simp [freshCoinsDB, deriveIndex]
    | step st₀ changes hashBlock fault hr ih =>
      cases fault with
      | false =>
        show IndexConsistent (writeAll st₀ changes hashBlock)
        intro p
        exact indexConsistent_applyChanges st₀ changes (reachable_enabled st₀ hr) ih p
      | true => exact ih
  · intro p
    exact Iff.rfl

/-- Witness for C3 at a state reached by one committed two-transaction batch. -/
theorem scriptIndex_consistency_witness :
    Reachable ((BatchWrite (freshCoinsDB true)
        [((5 : Hash), CoinChange.entry ⟨[some ⟨50, 7⟩, none], 100, false⟩),
         ((8 : Hash), CoinChange.entry ⟨[some ⟨20, 7⟩, some ⟨30, 9⟩], 100, true⟩)]
        99 false).1) ∧
    (IndexConsistent ((BatchWrite (freshCoinsDB true)
        [((5 : Hash), CoinChange.entry ⟨[some ⟨50, 7⟩, none], 100, false⟩),
         ((8 : Hash), CoinChange.entry ⟨[some ⟨20, 7⟩, some ⟨30, 9⟩], 100, true⟩)]
        99 false).1) ∧
     IndexConsistent (GenerateAllCoinsByScript (DeleteAllCoinsByScript
       ((BatchWrite (freshCoinsDB true)
        [((5 : Hash), CoinChange.entry ⟨[some ⟨50, 7⟩, none], 100, false⟩),
         ((8 : Hash), CoinChange.entry ⟨[some ⟨20, 7⟩, some ⟨30, 9⟩], 100, true⟩)]
        99 false).1)))) :=
  ⟨Reachable.step _ _ _ _ Reachable.base,
   scriptIndex_consistency _ (Reachable.step _ _ _ _ Reachable.base)⟩

/-- The stored block-index record (`CDiskBlockIndex`): the parent block's hash
(`0` for genesis) and the fields copied onto the in-memory node; `nHeight`
stands for those fields here. -/
structure CDiskBlockIndex where
  hashPrev : Hash
  nHeight : Nat
deriving DecidableEq

/-- The in-memory block-index node (`CBlockIndex`): its parent link, resolved
by hash (an arena addressed by hash per spec §9, avoiding raw pointers), and
the fields set while loading. -/
structure CBlockIndex where
  pprev : Option Hash
  nHeight : Nat
deriving DecidableEq

/-- A freshly inserted, not-yet-wired node. -/
def emptyBlockIndex : CBlockIndex :=
  ⟨none, 0⟩

/-- Modelled from the spec (§4.3, §9): the idempotent insert callback handed to
`CBlockTreeDB::LoadBlockIndexGuts` — for the null hash it yields no node; for a
hash already present it returns the arena unchanged (repeated calls return the
same node); otherwise it creates a fresh node. -/
def insertBlockIndex (m : List (Hash × CBlockIndex)) (h : Hash) : List (Hash × CBlockIndex) :=
  if h = 0 then m
  else
    match lookupK m h with
    | some _ => m
    | none => (h, emptyBlockIndex) :: m

/-- The parent link a stored record induces: none for genesis, the parent hash
otherwise. -/
def parentLink (d : CDiskBlockIndex) : Option Hash :=
  if d.hashPrev = 0 then none else some d.hashPrev

/-- The fully wired node a stored record decodes to. -/
def nodeOfDisk (d : CDiskBlockIndex) : CBlockIndex :=
  ⟨parentLink d, d.nHeight⟩

/-- Modelled from the spec (§4.3): process one stored block-index record —
obtain the node for its hash via the callback, obtain (or create) the node for
its parent hash, then set the node's parent link and fields. -/
def loadEntry (m : List (Hash × CBlockIndex)) (p : Hash × CDiskBlockIndex) :
    List (Hash × CBlockIndex) :=
  insertK (insertBlockIndex (insertBlockIndex m p.1) p.2.hashPrev) p.1 (nodeOfDisk p.2)

/-- Modelled from the spec: `CBlockTreeDB::LoadBlockIndexGuts` — a full scan of
the block-index namespace in storage order, processing each record in turn. -/
def LoadBlockIndexGuts (entries : List (Hash × CDiskBlockIndex)) : List (Hash × CBlockIndex) :=
  entries.foldl loadEntry []

/-- What the arena holds for a hash after a load pass over `entries` starting
from arena `m₀`: the wired node when the hash has a stored record, else a fresh
node when some record names it as parent and the arena did not know it, else
whatever the arena already held. -/
def charLoad (entries : List (Hash × CDiskBlockIndex)) (m₀ : List (Hash × CBlockIndex))
    (h : Hash) : Option CBlockIndex :=
  match lookupK entries h with
  | some d => some (nodeOfDisk d)
  | none =>
      if h ≠ 0 ∧ h ∈ entries.map (fun p => p.2.hashPrev) ∧ lookupK m₀ h = none then
        some emptyBlockIndex
      else lookupK m₀ h

theorem lookupK_insertBlockIndex (m : List (Hash × CBlockIndex)) (h₀ h : Hash) :
    lookupK (insertBlockIndex m h₀) h =
      if h = h₀ ∧ h ≠ 0 ∧ lookupK m h = none then some emptyBlockIndex
      else lookupK m h := by
  unfold insertBlockIndex
  by_cases h0 : h₀ = 0
  · subst h0
    by_cases hh : h = 0 <;> simp [hh]
  · cases hm : lookupK m h₀ with
    | some v =>
      simp only [h0, if_neg, hm]
      by_cases hh : h = h₀
      · subst hh
        simp [hm]
      · simp [hh]
    | none =>
      simp only [h0, if_neg, hm]
      by_cases hh : h = h₀
      · subst hh
        simp [lookupK, hm, h0]
      · have hne : ¬h₀ = h := fun hx => hh hx.symm
        simp [lookupK, hh, hne]

theorem lookupK_loadEntry (m : List (Hash × CBlockIndex)) (e : Hash × CDiskBlockIndex)
    (h : Hash) :
    lookupK (loadEntry m e) h =
      if h = e.1 then some (nodeOfDisk e.2)
      else if h ≠ 0 ∧ h = e.2.hashPrev ∧ lookupK m h = none then some emptyBlockIndex
      else lookupK m h := by
  unfold loadEntry
  rw [lookupK_insertK]
  by_cases he : h = e.1
  · simp [he]
  · rw [if_neg he, if_neg he, lookupK_insertBlockIndex, lookupK_insertBlockIndex]
    by_cases hh0 : h = 0
    · simp [hh0]
    · by_cases hp : h = e.2.hashPrev
      · simp only [hh0, hp, ne_eq, not_false_iff, true_and, if_neg he, false_and, if_false]
        by_cases hm : lookupK m h = none
        · simp [← hp, hh0, hm, he]
        · simp [← hp, hh0, hm, he]
      · simp [hp, he, hh0]

theorem lookupK_foldl_loadEntry (entries : List (Hash × CDiskBlockIndex))
    (m₀ : List (Hash × CBlockIndex)) (h : Hash)
    (hnd : (entries.map Prod.fst).Nodup) :
    lookupK (entries.foldl loadEntry m₀) h = charLoad entries m₀ h := by
  induction entries generalizing m₀ with
  | nil => simp [charLoad, lookupK]
  | cons e es ih =>
    simp only [List.map_cons, List.nodup_cons] at hnd
    rw [List.foldl_cons, ih _ hnd.2]
    have hcons : lookupK (e :: es) h = if e.1 = h then some e.2 else lookupK es h := rfl
    by_cases he : h = e.1
    · have hes : lookupK es h = none := by
        rw [lookupK_eq_none_iff, he]
        exact hnd.1
      have hL : lookupK (loadEntry m₀ e) h = some (nodeOfDisk e.2) := by
        rw [lookupK_loadEntry, if_pos he]
      have hval : lookupK (e :: es) h = some e.2 := by
        rw [hcons, if_pos he.symm]
      simp [charLoad, hes, hL, hval]
    · have hval : lookupK (e :: es) h = lookupK es h := by
        rw [hcons, if_neg (fun hx => he hx.symm)]
      cases hes : lookupK es h with
      | some d => simp [charLoad, hes, hval]
      | none =>
        have hL : lookupK (loadEntry m₀ e) h =
            if h ≠ 0 ∧ h = e.2.hashPrev ∧ lookupK m₀ h = none then some emptyBlockIndex
            else lookupK m₀ h := by
          rw [lookupK_loadEntry, if_neg he]
        by_cases hh0 : h = 0
        · have hLv : lookupK (loadEntry m₀ e) h = lookupK m₀ h := by
            rw [hL, if_neg (by rintro ⟨hx, -, -⟩; exact hx hh0)]
          subst hh0
          simp [charLoad, hes, hval, hLv]
        · by_cases hp : h = e.2.hashPrev
          · have hmemp : h ∈ (e :: es).map (fun p => p.2.hashPrev) := by
              rw [List.map_cons, hp]
              exact List.mem_cons_self _ _
            by_cases hm : lookupK m₀ h = none
            · have hLv : lookupK (loadEntry m₀ e) h = some emptyBlockIndex := by
                rw [hL, if_pos ⟨hh0, hp, hm⟩]
              simp only [charLoad, hes, hval, hLv, hm, hh0]
              simp [hm, hh0]
              exact Or.inl hp
            · have hLv : lookupK (loadEntry m₀ e) h = lookupK m₀ h := by
                rw [hL, if_neg (by rintro ⟨-, -, hx⟩; exact hm hx)]
              simp [charLoad, hes, hval, hLv, hm, hh0]
          · have hLv : lookupK (loadEntry m₀ e) h = lookupK m₀ h := by
              rw [hL, if_neg (by rintro ⟨-, hx, -⟩; exact hp hx)]
            have hparents : (h ∈ (e :: es).map (fun p => p.2.hashPrev)) ↔
                (h ∈ es.map (fun p => p.2.hashPrev)) := by
              simp only [List.map_cons, List.mem_cons]
              constructor
              · rintro (hx | hx)
                · exact absurd hx hp
                · exact hx
              · exact Or.inr
            simp only [charLoad, hes, hval, hLv]
            by_cases hmem : h ∈ List.map (fun p => p.2.hashPrev) es
            · by_cases hm : lookupK m₀ h = none
              · rw [if_pos ⟨hh0, hmem, hm⟩,
                  if_pos ⟨hh0, List.mem_cons_of_mem _ hmem, hm⟩]
              · rw [if_neg (by rintro ⟨-, -, hx⟩; exact hm hx),
                  if_neg (by rintro ⟨-, -, hx⟩; exact hm hx)]
            · rw [if_neg (by rintro ⟨-, hx, -⟩; exact hmem hx),
                if_neg (by
                  rintro ⟨-, hx, -⟩
                  rcases List.mem_cons.mp hx with hb | hb
                  · exact hp hb
                  · exact hmem hb)]

theorem lookupK_perm {κ α : Type} [DecidableEq κ] (m₁ m₂ : List (κ × α))
    (hperm : m₁.Perm m₂) (hnd : (m₁.map Prod.fst).Nodup) (k : κ) :
    lookupK m₁ k = lookupK m₂ k := by
  have hnd₂ : (m₂.map Prod.fst).Nodup := ((hperm.map Prod.fst).nodup_iff).mp hnd
  cases hm : lookupK m₁ k with
  | some v =>
    have hmem : (k, v) ∈ m₂ := hperm.subset ((lookupK_eq_some_iff m₁ hnd k v).mp hm)
    exact ((lookupK_eq_some_iff m₂ hnd₂ k v).mpr hmem).symm
  | none =>
    have hmem : k ∉ m₂.map Prod.fst := by
      rw [← (hperm.map Prod.fst).mem_iff]
      exact (lookupK_eq_none_iff m₁ k).mp hm
    exact ((lookupK_eq_none_iff m₂ k).mpr hmem).symm

/-- C4: on a store whose block-index entries form a tree rooted at genesis
(every record's parent hash is null or resolves to a stored record), loading
with the idempotent insert callback yields, for every stored record, a node
wired to exactly that record (parent link = its parent hash, genesis link
null); the parent hash of every non-genesis record resolves to the parent's
own wired node; and the resulting arena is the same — pointwise — for every
storage order of the records. -/
theorem loadBlockIndexGuts_correct (entries : List (Hash × CDiskBlockIndex))
    (hnd : (entries.map Prod.fst).Nodup)
    (hroot : ∀ p ∈ entries, p.2.hashPrev = 0 ∨ p.2.hashPrev ∈ entries.map Prod.fst) :
    (∀ p ∈ entries, lookupK (LoadBlockIndexGuts entries) p.1 = some (nodeOfDisk p.2)) ∧
    (∀ p ∈ entries, p.2.hashPrev ≠ 0 →
      ∃ d, (p.2.hashPrev, d) ∈ entries ∧
        lookupK (LoadBlockIndexGuts entries) p.2.hashPrev = some (nodeOfDisk d)) ∧
    (∀ es₂, entries.Perm es₂ →
      ∀ h, lookupK (LoadBlockIndexGuts es₂) h = lookupK (LoadBlockIndexGuts entries) h) := by
  have hchar : ∀ h, lookupK (LoadBlockIndexGuts entries) h = charLoad entries [] h :=
    fun h => lookupK_foldl_loadEntry entries [] h hnd
  have hstored : ∀ p ∈ entries, lookupK (LoadBlockIndexGuts entries) p.1
      = some (nodeOfDisk p.2) := by
    intro p hp
    rw [hchar p.1]
    unfold charLoad
    rw [(lookupK_eq_some_iff entries hnd p.1 p.2).mpr hp]
  refine ⟨hstored, ?_, ?_⟩
  · intro p hp hne
    rcases hroot p hp with h0 | hmem
    · exact absurd h0 hne
    · rcases List.mem_map.mp hmem with ⟨q, hq, hq1⟩
      refine ⟨q.2, by rw [← hq1]; exact hq, ?_⟩
      rw [← hq1]
      exact hstored q hq
  · intro es₂ hperm h
    have hnd₂ : (es₂.map Prod.fst).Nodup := ((hperm.map Prod.fst).nodup_iff).mp hnd
    have h2 : lookupK (LoadBlockIndexGuts es₂) h = charLoad es₂ [] h :=
      lookupK_foldl_loadEntry es₂ [] h hnd₂
    rw [h2, hchar h]
    have hkey : lookupK es₂ h = lookupK entries h :=
      (lookupK_perm entries es₂ hperm hnd h).symm
    have hpar : (h ∈ es₂.map (fun p => p.2.hashPrev)) =
        (h ∈ entries.map (fun p => p.2.hashPrev)) :=
      propext ((hperm.map (fun p => p.2.hashPrev)).mem_iff).symm
    unfold charLoad
    rw [hkey]
    cases hx : lookupK entries h with
    | some d => rfl
    | none => simp only [hpar]

/-- Witness for C4: genesis `1`, child `2`, grandchild `3`, stored in the
order grandchild–genesis–child. -/
theorem loadBlockIndexGuts_correct_witness :
    (([((3 : Hash), (⟨2, 2⟩ : CDiskBlockIndex)), (1, ⟨0, 0⟩), (2, ⟨1, 1⟩)].map
        Prod.fst).Nodup ∧
     (∀ p ∈ [((3 : Hash), (⟨2, 2⟩ : CDiskBlockIndex)), (1, ⟨0, 0⟩), (2, ⟨1, 1⟩)],
        p.2.hashPrev = 0 ∨
        p.2.hashPrev ∈ [((3 : Hash), (⟨2, 2⟩ : CDiskBlockIndex)), (1, ⟨0, 0⟩),
          (2, ⟨1, 1⟩)].map Prod.fst)) ∧
    ((∀ p ∈ [((3 : Hash), (⟨2, 2⟩ : CDiskBlockIndex)), (1, ⟨0, 0⟩), (2, ⟨1, 1⟩)],
        lookupK (LoadBlockIndexGuts
          [((3 : Hash), (⟨2, 2⟩ : CDiskBlockIndex)), (1, ⟨0, 0⟩), (2, ⟨1, 1⟩)]) p.1 =
          some (nodeOfDisk p.2)) ∧
     (∀ p ∈ [((3 : Hash), (⟨2, 2⟩ : CDiskBlockIndex)), (1, ⟨0, 0⟩), (2, ⟨1, 1⟩)],
        p.2.hashPrev ≠ 0 →
        ∃ d, (p.2.hashPrev, d) ∈
            [((3 : Hash), (⟨2, 2⟩ : CDiskBlockIndex)), (1, ⟨0, 0⟩), (2, ⟨1, 1⟩)] ∧
          lookupK (LoadBlockIndexGuts
            [((3 : Hash), (⟨2, 2⟩ : CDiskBlockIndex)), (1, ⟨0, 0⟩), (2, ⟨1, 1⟩)])
            p.2.hashPrev = some (nodeOfDisk d)) ∧
     (∀ es₂, ([((3 : Hash), (⟨2, 2⟩ : CDiskBlockIndex)), (1, ⟨0, 0⟩),
          (2, ⟨1, 1⟩)]).Perm es₂ →
        ∀ h, lookupK (LoadBlockIndexGuts es₂) h =
          lookupK (LoadBlockIndexGuts
            [((3 : Hash), (⟨2, 2⟩ : CDiskBlockIndex)), (1, ⟨0, 0⟩), (2, ⟨1, 1⟩)]) h)) :=
  ⟨⟨by decide, by decide⟩,
   loadBlockIndexGuts_correct
     [((3 : Hash), (⟨2, 2⟩ : CDiskBlockIndex)), (1, ⟨0, 0⟩), (2, ⟨1, 1⟩)]
     (by decide) (by decide)⟩

/-- One output of a transaction as the balance ledger sees it: the destination
address (a base58 string, as in `CBalanceViewDB::GetBalance`) and its amount. -/
structure BalTxOut where
  address : String
  nValue : CAmount
deriving DecidableEq

/-- A transaction as the balance ledger consumes it: input outpoints (resolved
through the UTXO view passed to `UpdateBalance`) and outputs. -/
structure BalTx where
  vin : List Nat
  vout : List BalTxOut
deriving DecidableEq

/-- Modelled from the spec: the state of `CBalanceViewDB` (implementation file
absent) — the persisted per-(address, height) balance records and the
in-memory write-back cache `cacheBalance`. -/
structure CBalanceViewDB where
  pdb : List ((String × Nat) × CAmount)
  cacheBalance : List (String × CAmount)
deriving DecidableEq

/-- Modelled from the spec: `CBalanceViewDB::ReadDB` — point read of the record
persisted for an address at exactly one height. -/
def ReadDB (db : List ((String × Nat) × CAmount)) (address : String) (nHeight : Nat) :
    Option CAmount :=
  lookupK db (address, nHeight)

/-- The latest persisted record at or before a height, scanning downward. -/
def readLatest (db : List ((String × Nat) × CAmount)) (address : String) :
    Nat → Option CAmount
  | 0 => ReadDB db address 0
  | n + 1 =>
    match ReadDB db address (n + 1) with
    | some v => some v
    | none => readLatest db address n

/-- Modelled from the spec: `CBalanceViewDB::GetBalance` — checks the
in-memory cache first; on a miss, the latest persisted record at or before the
queried height; `0` when none exists. -/
def GetBalance (st : CBalanceViewDB) (address : String) (nHeight : Nat) : CAmount :=
  match lookupK st.cacheBalance address with
  | some v => v
  | none => (readLatest st.pdb address nHeight).getD 0

/-- Credit one output's amount to its address in the cache. -/
def creditOut (nHeight : Nat) (st : CBalanceViewDB) (o : BalTxOut) : CBalanceViewDB :=
  { st with cacheBalance :=
      insertK st.cacheBalance o.address (GetBalance st o.address nHeight + o.nValue) }

/-- Debit one resolved input's amount from its address in the cache; an input
the view cannot resolve touches no address. -/
def debitIn (inputs : Nat → Option BalTxOut) (nHeight : Nat) (st : CBalanceViewDB)
    (i : Nat) : CBalanceViewDB :=
  match inputs i with
  | none => st
  | some o =>
      { st with cacheBalance :=
          insertK st.cacheBalance o.address (GetBalance st o.address nHeight - o.nValue) }

/-- Modelled from the spec: `CBalanceViewDB::UpdateBalance` — folds each
affected address's net delta from the transaction's resolved inputs and its
outputs into the in-memory cache; does not itself persist. -/
def UpdateBalance (st : CBalanceViewDB) (tx : BalTx) (inputs : Nat → Option BalTxOut)
    (nHeight : Nat) : CBalanceViewDB :=
  tx.vout.foldl (creditOut nHeight) (tx.vin.foldl (debitIn inputs nHeight) st)

/-- Modelled from the spec (§4.4, §8): the flush implied by the write path —
persists one record per cached address, keyed at the current height, and
leaves the cache empty (so that reads below the flush height see only the
persisted history). -/
def FlushBalance (st : CBalanceViewDB) (nHeight : Nat) : CBalanceViewDB :=
  { pdb := st.cacheBalance.foldl (fun db p => insertK db (p.1, nHeight) p.2) st.pdb
    cacheBalance := [] }

/-- Modelled from the spec: `CBalanceViewDB::ClearCache` — discards every
unflushed cache entry. -/
def ClearCache (st : CBalanceViewDB) : CBalanceViewDB :=
  { st with cacheBalance := [] }

theorem readLatest_none (db : List ((String × Nat) × CAmount)) (address : String) (n : Nat)
    (hn : ∀ h2, h2 ≤ n → ReadDB db address h2 = none) :
    readLatest db address n = none := by
  induction n with
  | zero => exact hn 0 (le_refl 0)
  | succ m ih =>
    unfold readLatest
    rw [hn (m + 1) (le_refl _)]
    exact ih (fun h2 hle => hn h2 (le_trans hle (Nat.le_succ m)))

theorem readLatest_self (db : List ((String × Nat) × CAmount)) (address : String) (n : Nat)
    (v : CAmount) (hv : ReadDB db address n = some v) :
    readLatest db address n = some v := by
  cases n with
  | zero => exact hv
  | succ m =>
    unfold readLatest
    rw [hv]

theorem readLatest_congr (db₁ db₂ : List ((String × Nat) × CAmount)) (address : String)
    (n : Nat) (hcong : ∀ h2, h2 ≤ n → ReadDB db₁ address h2 = ReadDB db₂ address h2) :
    readLatest db₁ address n = readLatest db₂ address n := by
  induction n with
  | zero => exact hcong 0 (le_refl 0)
  | succ m ih =>
    unfold readLatest
    rw [hcong (m + 1) (le_refl _)]
    cases ReadDB db₂ address (m + 1) with
    | some v => rfl
    | none => exact ih (fun h2 hle => hcong h2 (le_trans hle (Nat.le_succ m)))

/-- C5: an address with no balance record at or before height `h` reads as 0;
after `UpdateBalance` moves `N` units into the address at height `h` and the
cache is flushed, `GetBalance` at `h` returns `N` while `GetBalance` at `h-1`
returns the same value as before the update. -/
theorem balance_update_contract (st : CBalanceViewDB) (addr : String) (h : Nat)
    (N : CAmount) (inputs : Nat → Option BalTxOut)
    (hc : st.cacheBalance = [])
    (hnr : ∀ h2, h2 ≤ h → ReadDB st.pdb addr h2 = none)
    (hpos : 0 < h) :
    GetBalance st addr h = 0 ∧
    GetBalance (FlushBalance (UpdateBalance st ⟨[], [⟨addr, N⟩]⟩ inputs h) h) addr h = N ∧
    GetBalance (FlushBalance (UpdateBalance st ⟨[], [⟨addr, N⟩]⟩ inputs h) h) addr (h - 1)
      = GetBalance st addr (h - 1) := by
  have hg0 : GetBalance st addr h = 0 := by
    unfold GetBalance
    rw [hc]
    rw [show lookupK ([] : List (String × CAmount)) addr = none from rfl,
      readLatest_none st.pdb addr h hnr]
    rfl
  have hup : UpdateBalance st ⟨[], [⟨addr, N⟩]⟩ inputs h =
      ⟨st.pdb, [(addr, N)]⟩ := by
    show creditOut h st ⟨addr, N⟩ = _
    unfold creditOut
    rw [hc]
    show (⟨st.pdb, insertK [] addr (GetBalance st addr h + N)⟩ : CBalanceViewDB) = _
    rw [hg0]
    show (⟨st.pdb, [(addr, 0 + N)]⟩ : CBalanceViewDB) = _
    rw [zero_add]
  have hfl : FlushBalance (⟨st.pdb, [(addr, N)]⟩ : CBalanceViewDB) h =
      ⟨insertK st.pdb (addr, h) N, []⟩ := rfl
  rw [hup, hfl]
  refine ⟨hg0, ?_, ?_⟩
  · unfold GetBalance
    rw [show lookupK ([] : List (String × CAmount)) addr = none from rfl]
    rw [readLatest_self _ _ _ N (by
      show lookupK (insertK st.pdb (addr, h) N) (addr, h) = some N
      rw [lookupK_insertK, if_pos rfl])]
    rfl
  · unfold GetBalance
    rw [hc]
    rw [show lookupK ([] : List (String × CAmount)) addr = none from rfl]
    rw [readLatest_congr (insertK st.pdb (addr, h) N) st.pdb addr (h - 1) (by
      intro h2 hle
      show lookupK (insertK st.pdb (addr, h) N) (addr, h2) = ReadDB st.pdb addr h2
      rw [lookupK_insertK, if_neg (by
        intro hx
        have hx2 : h2 = h := congrArg Prod.snd hx
        have hlt : h2 < h := lt_of_le_of_lt hle (Nat.pred_lt (Nat.pos_iff_ne_zero.mp hpos))
        exact absurd hx2 (Nat.ne_of_lt hlt))]
      rfl)]

/-- Witness for C5 at a concrete empty ledger, height 3, amount 42. -/
theorem balance_update_contract_witness :
    ((⟨[], []⟩ : CBalanceViewDB).cacheBalance = [] ∧
     (∀ h2, h2 ≤ 3 → ReadDB (⟨[], []⟩ : CBalanceViewDB).pdb "addr1" h2 = none) ∧
     0 < 3) ∧
    (GetBalance (⟨[], []⟩ : CBalanceViewDB) "addr1" 3 = 0 ∧
     GetBalance (FlushBalance (UpdateBalance (⟨[], []⟩ : CBalanceViewDB)
       ⟨[], [⟨"addr1", 42⟩]⟩ (fun _ => none) 3) 3) "addr1" 3 = 42 ∧
     GetBalance (FlushBalance (UpdateBalance (⟨[], []⟩ : CBalanceViewDB)
       ⟨[], [⟨"addr1", 42⟩]⟩ (fun _ => none) 3) 3) "addr1" (3 - 1)
       = GetBalance (⟨[], []⟩ : CBalanceViewDB) "addr1" (3 - 1)) :=
  ⟨⟨rfl, fun h2 _ => rfl, by decide⟩,
   balance_update_contract ⟨[], []⟩ "addr1" 3 42 (fun _ => none)
     rfl (fun h2 _ => rfl) (by decide)⟩

theorem pdb_creditOut (nHeight : Nat) (st : CBalanceViewDB) (o : BalTxOut) :
    (creditOut nHeight st o).pdb = st.pdb := rfl

theorem pdb_debitIn (inputs : Nat → Option BalTxOut) (nHeight : Nat) (st : CBalanceViewDB)
    (i : Nat) : (debitIn inputs nHeight st i).pdb = st.pdb := by
  unfold debitIn
  cases inputs i with
  | none => rfl
  | some o => rfl

theorem pdb_foldl_creditOut (nHeight : Nat) (st : CBalanceViewDB) (outs : List BalTxOut) :
    (outs.foldl (creditOut nHeight) st).pdb = st.pdb := by
  induction outs generalizing st with
  | nil => rfl
  | cons o rest ih => rw [List.foldl_cons, ih, pdb_creditOut]

theorem pdb_foldl_debitIn (inputs : Nat → Option BalTxOut) (nHeight : Nat)
    (st : CBalanceViewDB) (ins : List Nat) :
    (ins.foldl (debitIn inputs nHeight) st).pdb = st.pdb := by
  induction ins generalizing st with
  | nil => rfl
  | cons i rest ih => rw [List.foldl_cons, ih, pdb_debitIn]

theorem pdb_UpdateBalance (st : CBalanceViewDB) (tx : BalTx)
    (inputs : Nat → Option BalTxOut) (nHeight : Nat) :
    (UpdateBalance st tx inputs nHeight).pdb = st.pdb := by
  unfold UpdateBalance
  rw [pdb_foldl_creditOut, pdb_foldl_debitIn]

theorem pdb_foldl_UpdateBalance (st : CBalanceViewDB)
    (steps : List (BalTx × (Nat → Option BalTxOut) × Nat)) :
    (steps.foldl (fun s q => UpdateBalance s q.1 q.2.1 q.2.2) st).pdb = st.pdb := by
  induction steps generalizing st with
  | nil => rfl
  | cons q rest ih => rw [List.foldl_cons, ih, pdb_UpdateBalance]

/-- C9: `UpdateBalance` never touches the persisted records, and after any
sequence of `UpdateBalance` calls with no flush, `ClearCache` restores the
exact prior state — every subsequent `GetBalance` returns the same value as
before any of the calls. -/
theorem clearCache_discards (st : CBalanceViewDB)
    (steps : List (BalTx × (Nat → Option BalTxOut) × Nat))
    (hc : st.cacheBalance = []) :
    (steps.foldl (fun s q => UpdateBalance s q.1 q.2.1 q.2.2) st).pdb = st.pdb ∧
    ClearCache (steps.foldl (fun s q => UpdateBalance s q.1 q.2.1 q.2.2) st) = st ∧
    (∀ addr h2,
      GetBalance (ClearCache (steps.foldl (fun s q => UpdateBalance s q.1 q.2.1 q.2.2) st))
        addr h2 = GetBalance st addr h2) := by
  have hpdb := pdb_foldl_UpdateBalance st steps
  have hclear : ClearCache (steps.foldl (fun s q => UpdateBalance s q.1 q.2.1 q.2.2) st)
      = st := by
    show (⟨(steps.foldl (fun s q => UpdateBalance s q.1 q.2.1 q.2.2) st).pdb, []⟩
      : CBalanceViewDB) = st
    rw [hpdb]
    cases st with
    | mk p c =>
      rw [show c = [] from hc]
  exact ⟨hpdb, hclear, fun addr h2 => by rw [hclear]⟩

/-- Witness for C9 after two un-flushed transactions on a flushed ledger. -/
theorem clearCache_discards_witness :
    ((⟨[(("a", 1), 7)], []⟩ : CBalanceViewDB).cacheBalance = []) ∧
    (([(⟨[], [⟨"a", 5⟩]⟩, fun _ => none, 2), (⟨[0], []⟩, fun _ => some ⟨"a", 3⟩, 2)]
        : List (BalTx × (Nat → Option BalTxOut) × Nat)).foldl
      (fun s q => UpdateBalance s q.1 q.2.1 q.2.2) (⟨[(("a", 1), 7)], []⟩ : CBalanceViewDB)).pdb
      = (⟨[(("a", 1), 7)], []⟩ : CBalanceViewDB).pdb ∧
    ClearCache (([(⟨[], [⟨"a", 5⟩]⟩, fun _ => none, 2), (⟨[0], []⟩, fun _ => some ⟨"a", 3⟩, 2)]
        : List (BalTx × (Nat → Option BalTxOut) × Nat)).foldl
      (fun s q => UpdateBalance s q.1 q.2.1 q.2.2) (⟨[(("a", 1), 7)], []⟩ : CBalanceViewDB))
      = (⟨[(("a", 1), 7)], []⟩ : CBalanceViewDB) ∧
    (∀ addr h2,
      GetBalance (ClearCache (([(⟨[], [⟨"a", 5⟩]⟩, fun _ => none, 2),
          (⟨[0], []⟩, fun _ => some ⟨"a", 3⟩, 2)]
          : List (BalTx × (Nat → Option BalTxOut) × Nat)).foldl
        (fun s q => UpdateBalance s q.1 q.2.1 q.2.2)
        (⟨[(("a", 1), 7)], []⟩ : CBalanceViewDB))) addr h2
      = GetBalance (⟨[(("a", 1), 7)], []⟩ : CBalanceViewDB) addr h2) :=
  ⟨rfl,
   clearCache_discards ⟨[(("a", 1), 7)], []⟩
     [(⟨[], [⟨"a", 5⟩]⟩, fun _ => none, 2), (⟨[0], []⟩, fun _ => some ⟨"a", 3⟩, 2)] rfl⟩

/-- Modelled from the spec (§7 StorageFault): a point read that hits a storage
fault yields no value.  `GetBalance` returns a plain amount with no success
flag — unlike `ReadDB`/`WriteDB` and every other read in this layer, which
report success through a boolean — so a failed read can only contribute the
same `0` as a missing record. -/
def ReadDBFaulty (faulty : String × Nat → Bool) (db : List ((String × Nat) × CAmount))
    (address : String) (nHeight : Nat) : Option CAmount :=
  if faulty (address, nHeight) then none else lookupK db (address, nHeight)

/-- The downward scan of `GetBalance` over the fault-prone read. -/
def readLatestFaulty (faulty : String × Nat → Bool) (db : List ((String × Nat) × CAmount))
    (address : String) : Nat → Option CAmount
  | 0 => ReadDBFaulty faulty db address 0
  | n + 1 =>
    match ReadDBFaulty faulty db address (n + 1) with
    | some v => some v
    | none => readLatestFaulty faulty db address n

/-- `GetBalance` over the fault-prone read path: identical to `GetBalance`
except that the underlying point reads may fault. -/
def GetBalanceFaulty (faulty : String × Nat → Bool) (st : CBalanceViewDB)
    (address : String) (nHeight : Nat) : CAmount :=
  match lookupK st.cacheBalance address with
  | some v => v
  | none => (readLatestFaulty faulty st.pdb address nHeight).getD 0

theorem readLatestFaulty_noFault (db : List ((String × Nat) × CAmount)) (address : String)
    (n : Nat) :
    readLatestFaulty (fun _ => false) db address n = readLatest db address n := by
  induction n with
  | zero => rfl
  | succ m ih =>
    unfold readLatestFaulty readLatest
    rw [show ReadDBFaulty (fun _ => false) db address (m + 1) = ReadDB db address (m + 1)
      from rfl]
    cases ReadDB db address (m + 1) with
    | some v => rfl
    | none => exact ih

theorem readLatestFaulty_allFaults (db : List ((String × Nat) × CAmount)) (address : String)
    (n : Nat) :
    readLatestFaulty (fun _ => true) db address n = none := by
  induction n with
  | zero => rfl
  | succ m ih =>
    unfold readLatestFaulty
    rw [show ReadDBFaulty (fun _ => true) db address (m + 1) = none from rfl]
    exact ih

/-- C10: `GetBalance` is total with no error channel — with no faults the
fault-prone read path agrees with `GetBalance` everywhere, and when every
underlying read faults, a store genuinely holding the record `v` for the
queried address and height still answers `0`, exactly what the genuinely empty
store answers: the caller cannot distinguish a zero balance from a failed
read. -/
theorem getBalance_no_error_channel (db : List ((String × Nat) × CAmount)) (addr : String)
    (h : Nat) (v : CAmount) :
    (∀ st : CBalanceViewDB,
      GetBalanceFaulty (fun _ => false) st addr h = GetBalance st addr h) ∧
    GetBalanceFaulty (fun _ => true) ⟨insertK db (addr, h) v, []⟩ addr h = 0 ∧
    GetBalance (⟨[], []⟩ : CBalanceViewDB) addr h = 0 := by
  refine ⟨?_, ?_, ?_⟩
  · intro st
    unfold GetBalanceFaulty GetBalance
    cases lookupK st.cacheBalance addr with
    | some w => rfl
    | none => rw [readLatestFaulty_noFault]
  · unfold GetBalanceFaulty
    rw [show lookupK ([] : List (String × CAmount)) addr = none from rfl,
      readLatestFaulty_allFaults]
    rfl
  · unfold GetBalance
    rw [show lookupK ([] : List (String × CAmount)) addr = none from rfl,
      readLatest_none [] addr h (fun h2 _ => rfl)]
    rfl

/-- Modelled from the spec: the named-flag namespace of `CBlockTreeDB`
(`WriteFlag`). -/
def WriteFlag (flags : List (String × Bool)) (name : String) (fValue : Bool) :
    List (String × Bool) :=
  insertK flags name fValue

/-- Modelled from the spec: `CBlockTreeDB::ReadFlag` — the stored value, or
the default `false` for a flag never set. -/
def ReadFlag (flags : List (String × Bool)) (name : String) : Bool :=
  (lookupK flags name).getD false

/-- C8: `ReadFlag` after `WriteFlag name v` yields `v`; a flag never set reads
as the default `false`. -/
theorem flag_contract (flags : List (String × Bool)) (name name₂ : String) (v : Bool)
    (hunset : name₂ ∉ flags.map Prod.fst) :
    ReadFlag (WriteFlag flags name v) name = v ∧ ReadFlag flags name₂ = false := by
  constructor
  · unfold ReadFlag WriteFlag
    rw [lookupK_insertK, if_pos rfl]
    rfl
  · unfold ReadFlag
    rw [(lookupK_eq_none_iff flags name₂).mpr hunset]
    rfl

/-- Witness for C8 over concrete flag names. -/
theorem flag_contract_witness :
    ("othername" ∉ ([("txindex", true)] : List (String × Bool)).map Prod.fst) ∧
    (ReadFlag (WriteFlag [("txindex", true)] "reindexing" true) "reindexing" = true ∧
     ReadFlag [("txindex", true)] "othername" = false) :=
  ⟨by decide, flag_contract [("txindex", true)] "reindexing" "othername" true (by decide)⟩

/-- Modelled from the spec: the state of `CRewardRateViewDB` — one persisted
(address, rate) snapshot per height.  The rate value is a `double` in the
declaration, but the ledger only stores it and hands it back, so it is
modelled as an opaque integer stored and returned unchanged. -/
structure CRewardRateViewDB where
  pdb : List (Nat × (String × Int))
deriving DecidableEq

/-- Modelled from the spec: `CRewardRateViewDB::UpdateRewardRate` — persists
one snapshot row for the height. -/
def UpdateRewardRate (st : CRewardRateViewDB) (leaderAddress : String) (val : Int)
    (nHeight : Nat) : CRewardRateViewDB :=
  ⟨insertK st.pdb nHeight (leaderAddress, val)⟩

/-- Modelled from the spec: `CRewardRateViewDB::GetRewardRate` — the combined
(address, rate) snapshot recorded for exactly that height, NotFound
otherwise. -/
def GetRewardRate (st : CRewardRateViewDB) (nHeight : Nat) : Option (String × Int) :=
  lookupK st.pdb nHeight

/-- C6: `UpdateRewardRate addr r h` then `GetRewardRate h` returns exactly the
pair `(addr, r)`; a height at which no rate was ever recorded reads as
NotFound. -/
theorem rewardRate_contract (st : CRewardRateViewDB) (addr : String) (r : Int)
    (h h₂ : Nat) (hunset : h₂ ∉ st.pdb.map Prod.fst) :
    GetRewardRate (UpdateRewardRate st addr r h) h = some (addr, r) ∧
    GetRewardRate st h₂ = none := by
  constructor
  · unfold GetRewardRate UpdateRewardRate
    rw [lookupK_insertK, if_pos rfl]
  · exact (lookupK_eq_none_iff st.pdb h₂).mpr hunset

/-- Witness for C6 at height 12 on a one-row ledger. -/
theorem rewardRate_contract_witness :
    ((7 : Nat) ∉ ([(3, ("b", 9))] : List (Nat × (String × Int))).map Prod.fst) ∧
    (GetRewardRate (UpdateRewardRate ⟨[(3, ("b", 9))]⟩ "leader" 5 12) 12
       = some ("leader", 5) ∧
     GetRewardRate (⟨[(3, ("b", 9))]⟩ : CRewardRateViewDB) 7 = none) :=
  ⟨by decide, rewardRate_contract ⟨[(3, ("b", 9))]⟩ "leader" 5 12 7 (by decide)⟩

end Taucoin
